import Mathlib

/-!
Verification of the Markdown-to-HTML core of `md_to_pdf.py`: the block
segmenter `md_to_html` and the inline formatter `process_inline`.

Strings are modelled as `List Char`.  Python's `re.sub` with the three
fixed patterns `(\*\*|__)(.*?)\1`, `(\*|_)(.*?)\1` and a backtick pair
performs a left-to-right scan: at each position it tries to open a span,
takes the shortest close (non-greedy `.*?`, which does not cross a
newline), and on success continues after the match.  Each pass is
embedded as a fuelled scanner (`boldPassF`, `emPassF`, `codePassF`); the
fuel is an upper bound on the remaining input length, so `length` fuel
always suffices and the wrappers `boldPass`, `emPass`, `codePass` are
total functions of the input alone.
-/

namespace MdToPdf

/-- Whitespace as stripped by Python's `str.strip()` and matched by `\s`,
restricted to the ASCII range (Python additionally treats some non-ASCII
Unicode characters as whitespace; no input considered here contains them). -/
def isPySpace (c : Char) : Bool :=
  c == ' ' || c == '\t' || c == '\n' || c == '\r' || c == '\x0b' || c == '\x0c'

/-- Python `str.strip()`: drop whitespace from both ends. -/
def stripChars (cs : List Char) : List Char :=
  ((cs.dropWhile isPySpace).reverse.dropWhile isPySpace).reverse

/-- Python `str.split('\n')`: always returns at least one (possibly empty) line. -/
def splitOnNl : List Char → List (List Char)
  | [] => [[]]
  | c :: rest =>
    if c = '\n' then [] :: splitOnNl rest
    else
      match splitOnNl rest with
      | l :: ls => (c :: l) :: ls
      | [] => [[c]]

/-- Shortest close for a single-character delimiter `d`: the scan of
`(.*?)d` starting after an opening `d`.  Returns the span's inner text and
the remainder after the closing delimiter; fails at a newline (Python's
`.` does not match `'\n'`) or at end of input. -/
def findClose1 (d : Char) : List Char → Option (List Char × List Char)
  | [] => none
  | c :: rest =>
    if c = d then some ([], rest)
    else if c = '\n' then none
    else
      match findClose1 d rest with
      | some (inner, r) => some (c :: inner, r)
      | none => none

/-- Shortest close for a doubled delimiter `dd` (`**` or `__`), as scanned
by `(.*?)\1` after an opening `\1`. -/
def findClose2 (d : Char) : List Char → Option (List Char × List Char)
  | [] => none
  | [_] => none
  | c1 :: c2 :: rest =>
    if c1 = d ∧ c2 = d then some ([], rest)
    else if c1 = '\n' then none
    else
      match findClose2 d (c2 :: rest) with
      | some (inner, r) => some (c1 :: inner, r)
      | none => none

/-- Fuelled scanner for `re.sub(r'(\*\*|__)(.*?)\1', r'<strong>\2</strong>', text)`. -/
def boldPassF : Nat → List Char → List Char
  | _, [] => []
  | _, [c] => [c]
  | 0, cs => cs
  | fuel + 1, c1 :: c2 :: rest =>
    if (c1 = '*' ∧ c2 = '*') ∨ (c1 = '_' ∧ c2 = '_') then
      match findClose2 c1 rest with
      | some (inner, rest2) =>
        "<strong>".data ++ inner ++ "</strong>".data ++ boldPassF fuel rest2
      | none => c1 :: boldPassF fuel (c2 :: rest)
    else c1 :: boldPassF fuel (c2 :: rest)

/-- Fuelled scanner for `re.sub(r'(\*|_)(.*?)\1', r'<em>\2</em>', text)`. -/
def emPassF : Nat → List Char → List Char
  | _, [] => []
  | 0, cs => cs
  | fuel + 1, c :: rest =>
    if c = '*' ∨ c = '_' then
      match findClose1 c rest with
      | some (inner, rest2) => "<em>".data ++ inner ++ "</em>".data ++ emPassF fuel rest2
      | none => c :: emPassF fuel rest
    else c :: emPassF fuel rest

/-- Fuelled scanner for the backtick pass producing `<code>...</code>`. -/
def codePassF : Nat → List Char → List Char
  | _, [] => []
  | 0, cs => cs
  | fuel + 1, c :: rest =>
    if c = '`' then
      match findClose1 '`' rest with
      | some (inner, rest2) => "<code>".data ++ inner ++ "</code>".data ++ codePassF fuel rest2
      | none => c :: codePassF fuel rest
    else c :: codePassF fuel rest

/-- The strong-emphasis substitution pass. -/
def boldPass (cs : List Char) : List Char := boldPassF cs.length cs

/-- The emphasis substitution pass. -/
def emPass (cs : List Char) : List Char := emPassF cs.length cs

/-- The inline-code substitution pass. -/
def codePass (cs : List Char) : List Char := codePassF cs.length cs

/-- `process_inline` from `md_to_pdf.py`: bold, then italics, then code. -/
def process_inline (text : List Char) : List Char :=
  codePass (emPass (boldPass text))

/-- `re.match(r'^(#{1,6})\s+(.*)', stripped_line)`: the group of leading
`'#'` characters is matched greedily; backtracking to fewer hashes only
re-exposes a `'#'`, which `\s` cannot match, so the line matches exactly
when the leading-hash count `k` is between 1 and 6 and the next character
is whitespace.  Returns the level and group 2 (the text after the greedy
`\s+`). -/
def headingMatch (cs : List Char) : Option (Nat × List Char) :=
  let k := (cs.takeWhile (· == '#')).length
  match cs.drop k with
  | c :: rest =>
    if 1 ≤ k ∧ k ≤ 6 ∧ isPySpace c then
      some (k, (c :: rest).dropWhile isPySpace)
    else none
  | [] => none

/-- `stripped_line.startswith('- ') or stripped_line.startswith('* ')`. -/
def isListItemLine : List Char → Bool
  | c1 :: c2 :: _ => (c1 == '-' || c1 == '*') && c2 == ' '
  | _ => false

/-- The mutable state of `md_to_html`: emitted fragments plus the two
pending buffers (`current_paragraph`, `current_list`). -/
structure MdState where
  html_parts : List (List Char)
  current_paragraph : List (List Char)
  current_list : List (List Char)

/-- The nested `flush()`: emit the pending list (if any), then the pending
paragraph (if its space-joined, stripped content is non-empty); clear both. -/
def flush (s : MdState) : MdState :=
  let s1 :=
    if s.current_list.isEmpty then s
    else
      { s with
        html_parts := s.html_parts ++ ["<ul>".data ++ s.current_list.flatten ++ "</ul>".data]
        current_list := [] }
  if s1.current_paragraph.isEmpty then s1
  else
    let p_content := stripChars (List.intercalate [' '] s1.current_paragraph)
    { s1 with
      html_parts :=
        if p_content.isEmpty then s1.html_parts
        else s1.html_parts ++ ["<p>".data ++ process_inline p_content ++ "</p>".data]
      current_paragraph := [] }

/-- The body of the per-line loop, applied to the stripped line. -/
def processStripped (s : MdState) (stripped : List Char) : MdState :=
  if stripped.isEmpty then flush s
  else
    match headingMatch stripped with
    | some (level, content0) =>
      let s := flush s
      let content := stripChars content0
      { s with
        html_parts := s.html_parts ++
          ["<h".data ++ (Nat.repr level).data ++ ">".data ++ process_inline content ++
            "</h".data ++ (Nat.repr level).data ++ ">".data] }
    | none =>
      if isListItemLine stripped then
        let s := if s.current_paragraph.isEmpty then s else flush s
        { s with
          current_list := s.current_list ++
            ["<li>".data ++ process_inline (stripChars (stripped.drop 2)) ++ "</li>".data] }
      else
        let s := if s.current_list.isEmpty then s else flush s
        { s with current_paragraph := s.current_paragraph ++ [stripped] }

/-- One iteration of `for line in lines`: the loop first computes
`stripped_line = line.strip()` and every branch consults only it. -/
def processLine (s : MdState) (line : List Char) : MdState :=
  processStripped s (stripChars line)

/-- Both buffers start empty, with no fragments emitted. -/
def mdInit : MdState := ⟨[], [], []⟩

/-- `md_to_html` from `md_to_pdf.py`: split on `'\n'`, run the per-line
loop, final flush, join the fragments with `'\n'`. -/
def md_to_html (md_text : List Char) : List Char :=
  List.intercalate ['\n'] (flush ((splitOnNl md_text).foldl processLine mdInit)).html_parts

/-- `md_text.replace("\r\n", "\n")`: Python's `str.replace` scans left to
right, replacing non-overlapping occurrences. -/
def replCRLF : List Char → List Char
  | [] => []
  | [c] => [c]
  | c1 :: c2 :: rest =>
    if c1 = '\r' ∧ c2 = '\n' then '\n' :: replCRLF rest
    else c1 :: replCRLF (c2 :: rest)

/-- One input line of the CRLF document may carry one extra trailing
`'\r'` compared with the corresponding line of the normalized document. -/
def LineRel (m o : List Char) : Prop := o = m ∨ o = m ++ ['\r']

/-- The buffer-exclusivity invariant of the block segmenter. -/
def BuffersExclusive (s : MdState) : Prop :=
  s.current_paragraph = [] ∨ s.current_list = []

/-- Some suffix of the text opens a strong span (`**` or `__`) that finds a
close: the condition under which the strong-emphasis rule matches somewhere. -/
def boldMatchableB : List Char → Bool
  | c1 :: c2 :: rest =>
    (decide ((c1 = '*' ∧ c2 = '*') ∨ (c1 = '_' ∧ c2 = '_')) && (findClose2 c1 rest).isSome) ||
      boldMatchableB (c2 :: rest)
  | _ => false

/-- Some suffix of the text opens an emphasis span (`*` or `_`) that finds
a close: the condition under which the emphasis rule matches somewhere. -/
def emMatchableB : List Char → Bool
  | [] => false
  | c :: rest =>
    (decide (c = '*' ∨ c = '_') && (findClose1 c rest).isSome) || emMatchableB rest

/-- Some suffix of the text opens a backtick span that finds a close. -/
def codeMatchableB : List Char → Bool
  | [] => false
  | c :: rest => (decide (c = '`') && (findClose1 '`' rest).isSome) || codeMatchableB rest

/-- The text contains one of the three inline delimiter characters. -/
def hasDelim (cs : List Char) : Bool :=
  cs.any fun c => c == '*' || c == '_' || c == '`'

/-- Spec-side reading of the heading rule: 1 to 6 leading `'#'` characters
followed by at least one whitespace character and the remaining text. -/
def IsHeadingLine (cs : List Char) : Prop :=
  ∃ k w rest, 1 ≤ k ∧ k ≤ 6 ∧ isPySpace w = true ∧
    cs = List.replicate k '#' ++ w :: rest

/-! ### Basic facts about the close-finding scans -/

theorem findClose1_length (d : Char) :
    ∀ cs inner rest, findClose1 d cs = some (inner, rest) →
      cs.length = inner.length + 1 + rest.length
  | [], inner, rest, h => by simp [findClose1] at h
  | c :: cs, inner, rest, h => by
    rw [findClose1] at h
    split at h
    · simp only [Option.some.injEq, Prod.mk.injEq] at h
      obtain ⟨rfl, rfl⟩ := h
      simp
      omega
    · split at h
      · simp at h
      · cases hfc : findClose1 d cs with
        | none => rw [hfc] at h; simp at h
        | some p =>
          obtain ⟨inner0, r0⟩ := p
          rw [hfc] at h
          simp only [Option.some.injEq, Prod.mk.injEq] at h
          obtain ⟨rfl, rfl⟩ := h
          have ih := findClose1_length d cs inner0 r0 hfc
          simp only [List.length_cons] at *
          omega

theorem findClose2_length (d : Char) :
    ∀ cs inner rest, findClose2 d cs = some (inner, rest) →
      cs.length = inner.length + 2 + rest.length
  | [], inner, rest, h => by simp [findClose2] at h
  | [c], inner, rest, h => by simp [findClose2] at h
  | c1 :: c2 :: cs, inner, rest, h => by
    rw [findClose2] at h
    split at h
    · simp only [Option.some.injEq, Prod.mk.injEq] at h
      obtain ⟨rfl, rfl⟩ := h
      simp
      omega
    · split at h
      · simp at h
      · cases hfc : findClose2 d (c2 :: cs) with
        | none => rw [hfc] at h; simp at h
        | some p =>
          obtain ⟨inner0, r0⟩ := p
          rw [hfc] at h
          simp only [Option.some.injEq, Prod.mk.injEq] at h
          obtain ⟨rfl, rfl⟩ := h
          have ih := findClose2_length d (c2 :: cs) inner0 r0 hfc
          simp only [List.length_cons] at *
          omega

/-! ### Each substitution pass is the identity when its rule never matches -/

theorem emPassF_id : ∀ fuel cs, cs.length ≤ fuel → emMatchableB cs = false →
    emPassF fuel cs = cs := by
  intro fuel
  induction fuel with
  | zero =>
    intro cs h _
    have : cs = [] := List.length_eq_zero.mp (Nat.le_zero.mp h)
    subst this
    rfl
  | succ fuel ih =>
    intro cs h hm
    cases cs with
    | nil => rfl
    | cons c rest =>
      rw [emMatchableB] at hm
      simp only [Bool.or_eq_false_iff, Bool.and_eq_false_iff, decide_eq_false_iff_not] at hm
      obtain ⟨hm1, hm2⟩ := hm
      have hr : rest.length ≤ fuel := by
        simp only [List.length_cons] at h; omega
      rw [emPassF]
      by_cases hc : c = '*' ∨ c = '_'
      · have hnone : findClose1 c rest = none := by
          rcases hm1 with h1 | h1
          · exact absurd hc h1
          · exact Option.not_isSome_iff_eq_none.mp (by simp [h1])
        simp only [if_pos hc, hnone]
        rw [ih rest hr hm2]
      · simp only [if_neg hc]
        rw [ih rest hr hm2]

theorem codePassF_id : ∀ fuel cs, cs.length ≤ fuel → codeMatchableB cs = false →
    codePassF fuel cs = cs := by
  intro fuel
  induction fuel with
  | zero =>
    intro cs h _
    have : cs = [] := List.length_eq_zero.mp (Nat.le_zero.mp h)
    subst this
    rfl
  | succ fuel ih =>
    intro cs h hm
    cases cs with
    | nil => rfl
    | cons c rest =>
      rw [codeMatchableB] at hm
      simp only [Bool.or_eq_false_iff, Bool.and_eq_false_iff, decide_eq_false_iff_not] at hm
      obtain ⟨hm1, hm2⟩ := hm
      have hr : rest.length ≤ fuel := by
        simp only [List.length_cons] at h; omega
      rw [codePassF]
      by_cases hc : c = '`'
      · have hnone : findClose1 '`' rest = none := by
          rcases hm1 with h1 | h1
          · exact absurd hc h1
          · exact Option.not_isSome_iff_eq_none.mp (by simp [h1])
        simp only [if_pos hc, hnone]
        rw [ih rest hr hm2]
      · simp only [if_neg hc]
        rw [ih rest hr hm2]

theorem boldPassF_id : ∀ fuel cs, cs.length ≤ fuel → boldMatchableB cs = false →
    boldPassF fuel cs = cs := by
  intro fuel
  induction fuel with
  | zero =>
    intro cs h _
    have : cs = [] := List.length_eq_zero.mp (Nat.le_zero.mp h)
    subst this
    rfl
  | succ fuel ih =>
    intro cs h hm
    match cs with
    | [] => rfl
    | [c] => rfl
    | c1 :: c2 :: rest =>
      rw [boldMatchableB] at hm
      simp only [Bool.or_eq_false_iff, Bool.and_eq_false_iff, decide_eq_false_iff_not] at hm
      obtain ⟨hm1, hm2⟩ := hm
      have hr : (c2 :: rest).length ≤ fuel := by
        simp only [List.length_cons] at h ⊢; omega
      rw [boldPassF]
      by_cases hc : (c1 = '*' ∧ c2 = '*') ∨ (c1 = '_' ∧ c2 = '_')
      · have hnone : findClose2 c1 rest = none := by
          rcases hm1 with h1 | h1
          · exact absurd hc h1
          · exact Option.not_isSome_iff_eq_none.mp (by simp [h1])
        simp only [if_pos hc, hnone]
        rw [ih (c2 :: rest) hr hm2]
      · simp only [if_neg hc]
        rw [ih (c2 :: rest) hr hm2]

theorem boldPass_id (cs : List Char) (h : boldMatchableB cs = false) : boldPass cs = cs :=
  boldPassF_id cs.length cs le_rfl h

theorem emPass_id (cs : List Char) (h : emMatchableB cs = false) : emPass cs = cs :=
  emPassF_id cs.length cs le_rfl h

theorem codePass_id (cs : List Char) (h : codeMatchableB cs = false) : codePass cs = cs :=
  codePassF_id cs.length cs le_rfl h

/-! ### A delimiter-free text admits no match in any pass -/

theorem hasDelim_cons (c : Char) (cs : List Char) (h : hasDelim (c :: cs) = false) :
    ¬(c = '*' ∨ c = '_' ∨ c = '`') ∧ hasDelim cs = false := by
  simp only [hasDelim, List.any_cons, Bool.or_eq_false_iff, beq_eq_false_iff_ne, ne_eq] at h
  obtain ⟨⟨⟨h1, h2⟩, h3⟩, h4⟩ := h
  refine ⟨?_, h4⟩
  rintro (rfl | rfl | rfl) <;> simp_all

theorem emMatchableB_of_noDelim : ∀ cs, hasDelim cs = false → emMatchableB cs = false := by
  intro cs
  induction cs with
  | nil => intro _; rfl
  | cons c rest ih =>
    intro h
    obtain ⟨h1, h2⟩ := hasDelim_cons c rest h
    rw [emMatchableB]
    simp only [Bool.or_eq_false_iff, Bool.and_eq_false_iff, decide_eq_false_iff_not]
    exact ⟨Or.inl (by tauto), ih h2⟩

theorem codeMatchableB_of_noDelim : ∀ cs, hasDelim cs = false → codeMatchableB cs = false := by
  intro cs
  induction cs with
  | nil => intro _; rfl
  | cons c rest ih =>
    intro h
    obtain ⟨h1, h2⟩ := hasDelim_cons c rest h
    rw [codeMatchableB]
    simp only [Bool.or_eq_false_iff, Bool.and_eq_false_iff, decide_eq_false_iff_not]
    exact ⟨Or.inl (by tauto), ih h2⟩

theorem boldMatchableB_of_noDelim : ∀ cs, hasDelim cs = false → boldMatchableB cs = false := by
  intro cs
  induction cs with
  | nil => intro _; rfl
  | cons c rest ih =>
    intro h
    obtain ⟨h1, h2⟩ := hasDelim_cons c rest h
    cases rest with
    | nil => rfl
    | cons c2 rest2 =>
      rw [boldMatchableB]
      simp only [Bool.or_eq_false_iff, Bool.and_eq_false_iff, decide_eq_false_iff_not]
      exact ⟨Or.inl (by tauto), ih h2⟩

/-! ### The heading rule -/

theorem dropWhile_eq_drop_length_takeWhile (p : Char → Bool) :
    ∀ l : List Char, l.dropWhile p = l.drop (l.takeWhile p).length
  | [] => rfl
  | c :: l => by
    by_cases h : p c
    · simp only [List.dropWhile_cons_of_pos h, List.takeWhile_cons_of_pos h,
        List.length_cons, List.drop_succ_cons]
      exact dropWhile_eq_drop_length_takeWhile p l
    · simp [List.dropWhile_cons_of_neg h, List.takeWhile_cons_of_neg h]

theorem isPySpace_ne_hash {c : Char} (h : isPySpace c = true) : (c == '#') = false := by
  simp only [isPySpace, Bool.or_eq_true, beq_iff_eq] at h
  rcases h with ((((h | h) | h) | h) | h) | h <;> subst h <;> decide

theorem headingMatch_isSome_iff (cs : List Char) :
    (headingMatch cs).isSome = true ↔ IsHeadingLine cs := by
  constructor
  · intro h
    cases hd : cs.drop ((cs.takeWhile (· == '#')).length) with
    | nil =>
      simp only [headingMatch, hd, Option.isSome_none] at h
      exact absurd h (by simp)
    | cons c rest =>
      simp only [headingMatch, hd] at h
      split at h
      · rename_i hcond
        obtain ⟨h1, h2, h3⟩ := hcond
        refine ⟨(cs.takeWhile (· == '#')).length, c, rest, h1, h2, h3, ?_⟩
        have e1 : cs.takeWhile (· == '#') ++ cs.dropWhile (· == '#') = cs :=
          List.takeWhile_append_dropWhile _ _
        have e2 : cs.dropWhile (· == '#') = cs.drop ((cs.takeWhile (· == '#')).length) :=
          dropWhile_eq_drop_length_takeWhile _ cs
        have e3 : cs.takeWhile (· == '#') =
            List.replicate ((cs.takeWhile (· == '#')).length) '#' := by
          rw [List.eq_replicate_iff]
          refine ⟨rfl, ?_⟩
          intro b hb
          have := List.mem_takeWhile_imp hb
          simpa using this
        conv_lhs => rw [← e1, e3, e2, hd]
      · simp at h
  · rintro ⟨k, w, rest, h1, h2, h3, rfl⟩
    have hw : (w == '#') = false := isPySpace_ne_hash h3
    have ht : (List.replicate k '#' ++ w :: rest).takeWhile (· == '#') =
        List.replicate k '#' := by
      rw [List.takeWhile_append_of_pos
        (by intro a ha; simp [List.eq_of_mem_replicate ha])]
      simp [List.takeWhile_cons, hw]
    simp only [headingMatch, ht, List.length_replicate]
    rw [List.drop_left' (by simp)]
    simp [h1, h2, h3]

/-! ### Flushing and the buffer invariant -/

theorem flush_clears (s : MdState) :
    (flush s).current_paragraph = [] ∧ (flush s).current_list = [] := by
  simp only [flush]
  split_ifs <;> simp_all [List.isEmpty_iff]

theorem processStripped_exclusive (s : MdState) (l : List Char) :
    BuffersExclusive (processStripped s l) := by
  by_cases he : l.isEmpty
  · simp only [processStripped, if_pos he]
    exact Or.inl (flush_clears s).1
  · simp only [processStripped, if_neg he]
    cases hm : headingMatch l with
    | some p =>
      obtain ⟨level, content0⟩ := p
      simp only []
      exact Or.inl (flush_clears s).1
    | none =>
      simp only []
      by_cases hli : isListItemLine l
      · simp only [if_pos hli]
        by_cases hp : s.current_paragraph.isEmpty
        · simp only [if_pos hp]
          exact Or.inl (List.isEmpty_iff.mp hp)
        · simp only [if_neg hp]
          exact Or.inl (flush_clears s).1
      · simp only [if_neg hli]
        by_cases hl : s.current_list.isEmpty
        · simp only [if_pos hl]
          exact Or.inr (List.isEmpty_iff.mp hl)
        · simp only [if_neg hl]
          exact Or.inr (flush_clears s).2

theorem foldl_processLine_exclusive (lines : List (List Char)) :
    BuffersExclusive (lines.foldl processLine mdInit) := by
  induction lines using List.reverseRecOn with
  | nil => exact Or.inl rfl
  | append_singleton ls l _ =>
    rw [List.foldl_append, List.foldl_cons, List.foldl_nil]
    exact processStripped_exclusive _ _

/-! ### Claim C1: idempotence of the inline formatter -/

/-- C1, counterexample: `process_inline` is not idempotent as claimed.  On
the input `*a_b* c_d` the first application yields `<em>a_b</em> c_d`, in
which the two surviving `_` delimiters have become matchable, so a second
application yields `<em>a<em>b</em> c</em>d`. -/
theorem c1_counterexample :
    process_inline (process_inline "*a_b* c_d".data) ≠ process_inline "*a_b* c_d".data := by
  decide

/-- C1, amended: the inline formatter is idempotent on every input whose
formatted output contains no delimiter character (`*`, `_` or a backtick)
left to match: in that case all three substitution rules fail to match the
output and a second application of `process_inline` changes nothing. -/
theorem c1_process_inline_idempotent_of_delim_free (s : List Char)
    (h : hasDelim (process_inline s) = false) :
    process_inline (process_inline s) = process_inline s := by
  show codePass (emPass (boldPass (process_inline s))) = process_inline s
  rw [boldPass_id _ (boldMatchableB_of_noDelim _ h),
    emPass_id _ (emMatchableB_of_noDelim _ h),
    codePass_id _ (codeMatchableB_of_noDelim _ h)]

/-- C1, witness: the output of `process_inline` on `**bold** and *italic*`
is delimiter-free, and a second application leaves it unchanged. -/
theorem c1_witness :
    hasDelim (process_inline "**bold** and *italic*".data) = false ∧
      process_inline (process_inline "**bold** and *italic*".data) =
        process_inline "**bold** and *italic*".data :=
  ⟨by decide, c1_process_inline_idempotent_of_delim_free _ (by decide)⟩

/-! ### Claim C2: unmatched delimiters pass through unchanged -/

/-- C2: when every emphasis/code delimiter of the input lacks a matching
pair — no suffix of the text opens a strong, emphasis or code span that
finds a close — each substitution rule fails to match, and `process_inline`
returns the text unchanged, delimiters included. -/
theorem c2_unmatched_delimiters_unchanged (s : List Char)
    (hb : boldMatchableB s = false) (he : emMatchableB s = false)
    (hc : codeMatchableB s = false) :
    process_inline s = s := by
  show codePass (emPass (boldPass s)) = s
  rw [boldPass_id _ hb, emPass_id _ he, codePass_id _ hc]

/-- C2, witness: `*a _b` and a stray backtick have no matching pairs, and
the text passes through `process_inline` unchanged. -/
theorem c2_witness :
    boldMatchableB "*a _b `c".data = false ∧ emMatchableB "*a _b `c".data = false ∧
      codeMatchableB "*a _b `c".data = false ∧
      process_inline "*a _b `c".data = "*a _b `c".data :=
  ⟨by decide, by decide, by decide,
    c2_unmatched_delimiters_unchanged _ (by decide) (by decide) (by decide)⟩

/-! ### Claim C3: the heading classification rule -/

/-- C3: a stripped line is classified as a heading exactly when it has 1 to
6 leading `'#'` characters followed by at least one whitespace character;
concretely `md_to_html "# Title" = "<h1>Title</h1>"`,
`md_to_html "###### Deep" = "<h6>Deep</h6>"`, and a 7-hash line does not
match the heading rule and becomes a plain paragraph. -/
theorem c3_heading_rule :
    (∀ cs : List Char, (headingMatch cs).isSome = true ↔ IsHeadingLine cs) ∧
      md_to_html "# Title".data = "<h1>Title</h1>".data ∧
      md_to_html "###### Deep".data = "<h6>Deep</h6>".data ∧
      md_to_html "####### TooDeep".data = "<p>####### TooDeep</p>".data :=
  ⟨headingMatch_isSome_iff, by decide, by decide, by decide⟩

/-! ### Claim C4: buffer exclusivity -/

/-- C4: in any run of `md_to_html`, after each input line has been fully
processed (that is, after folding the per-line step over any prefix of the
split lines starting from the empty initial state), at most one of the
pending paragraph buffer and the pending list buffer is non-empty. -/
theorem c4_buffer_exclusivity (md_text : List Char) (i : Nat) :
    BuffersExclusive (((splitOnNl md_text).take i).foldl processLine mdInit) :=
  foldl_processLine_exclusive _

/-- C4, witness: processing the first line of a two-line document leaves
the buffers exclusive. -/
theorem c4_witness :
    BuffersExclusive (((splitOnNl "- a\nplain".data).take 1).foldl processLine mdInit) :=
  c4_buffer_exclusivity "- a\nplain".data 1

/-! ### Claim C5: strong emphasis before single emphasis, non-greedy -/

/-- C5: the strong pass is non-greedy with same-delimiter matching —
`**a** and **b**` yields two separate strong spans, not one spanning both —
and `**bold**` is fully consumed by the strong pass, its inner `*`
characters not reinterpreted by the later emphasis pass. -/
theorem c5_strong_nongreedy_before_em :
    process_inline "**a** and **b**".data =
        "<strong>a</strong> and <strong>b</strong>".data ∧
      process_inline "**bold**".data = "<strong>bold</strong>".data :=
  ⟨by decide, by decide⟩

/-! ### Claim C6: a list flushes before a directly following paragraph -/

/-- C6: switching from list markup to plain text with no blank line in
between flushes the list first: the lines `- a` then `plain` produce the
`<ul>` fragment followed by the `<p>` fragment, in that order. -/
theorem c6_list_then_paragraph :
    md_to_html "- a\nplain".data = "<ul><li>a</li></ul>\n<p>plain</p>".data := by
  decide

/-! ### Claim C7: paragraph lines are reflowed with single spaces -/

/-- C7: flushing a pending paragraph joins its buffered lines with a single
space, trims the result, and emits a `<p>` fragment only when the trimmed
join is non-empty, clearing the buffer either way; concretely the two lines
`Hello` / `world` produce the single paragraph `<p>Hello world</p>`. -/
theorem c7_paragraph_reflow :
    (∀ (parts p : List (List Char)),
        flush ⟨parts, p, []⟩ =
          ⟨parts ++
              (if stripChars (List.intercalate [' '] p) = [] then []
               else ["<p>".data ++ process_inline (stripChars (List.intercalate [' '] p)) ++
                 "</p>".data]),
            [], []⟩) ∧
      md_to_html "Hello\nworld".data = "<p>Hello world</p>".data := by
  constructor
  · intro parts p
    by_cases hp : p = []
    · subst hp
      simp [flush, stripChars, List.intercalate]
    · by_cases hpc : stripChars (List.intercalate [' '] p) = []
      · simp [flush, List.isEmpty_iff, hp, hpc]
      · simp [flush, List.isEmpty_iff, hp, hpc]
  · decide

/-! ### Claim C8: list grouping and the end-of-input flush -/

/-- C8: consecutive list-item lines are grouped into one `<ul>` block and a
document ending in an unflushed list still emits the fragment thanks to the
final flush: `md_to_html "- one\n- two" = "<ul><li>one</li><li>two</li></ul>"`. -/
theorem c8_list_grouping_final_flush :
    md_to_html "- one\n- two".data = "<ul><li>one</li><li>two</li></ul>".data := by
  decide

/-! ### Claim C9: insensitivity to CRLF line endings -/

theorem splitOnNl_ne_nil : ∀ s : List Char, splitOnNl s ≠ []
  | [] => by simp [splitOnNl]
  | c :: rest => by
    rw [splitOnNl]
    split
    · simp
    · cases h : splitOnNl rest with
      | nil => simp
      | cons l ls => simp [h]

theorem splitOnNl_cons_of_ne (c : Char) (rest : List Char) (hc : ¬c = '\n')
    {l : List Char} {ls : List (List Char)} (h : splitOnNl rest = l :: ls) :
    splitOnNl (c :: rest) = (c :: l) :: ls := by
  rw [splitOnNl, if_neg hc, h]

theorem stripChars_snoc_space (l : List Char) (c : Char) (hc : isPySpace c = true) :
    stripChars (l ++ [c]) = stripChars l := by
  unfold stripChars
  rw [List.dropWhile_append]
  by_cases h : (l.dropWhile isPySpace).isEmpty
  · rw [if_pos h]
    have h1 : List.dropWhile isPySpace [c] = [] := by
      simp [List.dropWhile_cons, hc]
    rw [h1, List.isEmpty_iff.mp h]
  · rw [if_neg h]
    have h2 : (l.dropWhile isPySpace ++ [c]).reverse =
        c :: (l.dropWhile isPySpace).reverse := by simp
    rw [h2, List.dropWhile_cons_of_pos hc]

theorem LineRel_cons {m o : List Char} (c : Char) (h : LineRel m o) :
    LineRel (c :: m) (c :: o) := by
  rcases h with rfl | rfl
  · exact Or.inl rfl
  · exact Or.inr rfl

theorem forall₂_lineRel_refl : ∀ ls : List (List Char), List.Forall₂ LineRel ls ls
  | [] => List.Forall₂.nil
  | _ :: ls => List.Forall₂.cons (Or.inl rfl) (forall₂_lineRel_refl ls)

theorem splitRepl : ∀ s : List Char,
    List.Forall₂ LineRel (splitOnNl (replCRLF s)) (splitOnNl s)
  | [] => forall₂_lineRel_refl _
  | [c] => forall₂_lineRel_refl _
  | c1 :: c2 :: rest => by
    rw [replCRLF]
    split
    · rename_i hcr
      obtain ⟨h1, h2⟩ := hcr
      subst h1
      subst h2
      have l1 : splitOnNl ('\n' :: replCRLF rest) = [] :: splitOnNl (replCRLF rest) := by
        rw [splitOnNl, if_pos rfl]
      have l2 : splitOnNl ('\r' :: '\n' :: rest) = ['\r'] :: splitOnNl rest := by
        have h1 : splitOnNl ('\n' :: rest) = [] :: splitOnNl rest := by
          rw [splitOnNl, if_pos rfl]
        exact splitOnNl_cons_of_ne '\r' _ (by decide) h1
      rw [l1, l2]
      exact List.Forall₂.cons (Or.inr rfl) (splitRepl rest)
    · by_cases hc1 : c1 = '\n'
      · subst hc1
        have l1 : splitOnNl ('\n' :: replCRLF (c2 :: rest)) =
            [] :: splitOnNl (replCRLF (c2 :: rest)) := by
          rw [splitOnNl, if_pos rfl]
        have l2 : splitOnNl ('\n' :: c2 :: rest) = [] :: splitOnNl (c2 :: rest) := by
          rw [splitOnNl, if_pos rfl]
        rw [l1, l2]
        exact List.Forall₂.cons (Or.inl rfl) (splitRepl (c2 :: rest))
      · have hrec := splitRepl (c2 :: rest)
        cases hm : splitOnNl (replCRLF (c2 :: rest)) with
        | nil => exact absurd hm (splitOnNl_ne_nil _)
        | cons m ms =>
          cases ho : splitOnNl (c2 :: rest) with
          | nil => exact absurd ho (splitOnNl_ne_nil _)
          | cons o os =>
            rw [hm, ho] at hrec
            rw [splitOnNl_cons_of_ne c1 _ hc1 hm, splitOnNl_cons_of_ne c1 _ hc1 ho]
            cases hrec with
            | cons hrel htail => exact List.Forall₂.cons (LineRel_cons c1 hrel) htail

theorem processLine_congr (st : MdState) {m o : List Char} (h : LineRel m o) :
    processLine st m = processLine st o := by
  rcases h with rfl | rfl
  · rfl
  · show processStripped st (stripChars m) = processStripped st (stripChars (m ++ ['\r']))
    rw [stripChars_snoc_space m '\r' (by decide)]

theorem foldl_processLine_congr :
    ∀ {ls1 ls2 : List (List Char)}, List.Forall₂ LineRel ls1 ls2 →
      ∀ st : MdState, ls1.foldl processLine st = ls2.foldl processLine st := by
  intro ls1 ls2 h
  induction h with
  | nil => intro _; rfl
  | cons hr _ ih =>
    intro st
    simp only [List.foldl_cons]
    rw [processLine_congr st hr]
    exact ih _

/-- C9: `md_to_html` is insensitive to CRLF line endings: replacing every
`"\r\n"` by `"\n"` in the input document does not change the output,
because the input is split on `'\n'` and every line is stripped of
surrounding whitespace — including its trailing `'\r'` — before
classification, blank-line detection and buffering. -/
theorem c9_crlf_insensitive (s : List Char) :
    md_to_html (replCRLF s) = md_to_html s := by
  unfold md_to_html
  rw [foldl_processLine_congr (splitRepl s) mdInit]

/-! ### Claim C10: later passes can match across earlier tags -/

/-- C10: the inline formatter can produce improperly nested tag sequences,
because the code pass can match across tags emitted by the strong pass:
on `**a`b** c`d` the `<code>` span opens inside the `<strong>` element and
closes outside it. -/
theorem c10_improper_nesting :
    process_inline "**a`b** c`d".data = "<strong>a<code>b</strong> c</code>d".data := by
  decide

end MdToPdf
